import Mathlib

/-!
Verification of the TEXT_ANALYSIS repository core algorithms.

This file gives a shallow embedding, in Lean 4, of the algorithmic core of the
repository:

* `font_normalizer.py` — the font/weight resolver (`normalize_font_and_weight`,
  `closest_weight`, the `VISUAL_TO_NUMERIC` label table);
* `color_detection.py` — the dominant-color extractor
  (`extract_dominant_text_color`) and the color comparison logic of
  `validate_color_against_model`;
* `process_pipeline.py` — the region/analysis merge engine (`merge_results`);
* `pipeline_utils.py` — `normalize_analysis_data`.

Python dictionaries are embedded as association lists with first-match lookup
and in-place update (`dictSet`), which reproduces CPython's key-order and
replacement semantics.  Machine integers are `Int`/`Nat`.  Fallible Python code
(statements that can raise) is embedded with `Option`/`Except`.  Float
expressions in the color comparison are idealised as exact real arithmetic.
-/

/-! ## Python dictionary primitives

A Python `dict` is embedded as an association list in key-insertion order.
`dlookup` is `d[k]` / `d.get(k)` (first and only occurrence of a key wins);
`dictSet` is `d[k] = v`: an existing key keeps its position and gets the new
value, a fresh key is appended at the end. -/

def dlookup {K V : Type} [DecidableEq K] : List (K × V) → K → Option V
  | [], _ => none
  | (k', v') :: rest, k => if k' = k then some v' else dlookup rest k

def dictSet {K V : Type} [DecidableEq K] : List (K × V) → K → V → List (K × V)
  | [], k, v => [(k, v)]
  | (k', v') :: rest, k, v =>
      if k' = k then (k, v) :: rest else (k', v') :: dictSet rest k v

theorem dlookup_dictSet_self {K V : Type} [DecidableEq K]
    (d : List (K × V)) (k : K) (v : V) : dlookup (dictSet d k v) k = some v := by
  induction d with
  | nil => simp [dictSet, dlookup]
  | cons kv rest ih =>
      by_cases h : kv.1 = k
      · simp [dictSet, h, dlookup]
      · simp [dictSet, h, dlookup, ih]

theorem dlookup_dictSet_ne {K V : Type} [DecidableEq K]
    (d : List (K × V)) (k k' : K) (v : V) (hne : k ≠ k') :
    dlookup (dictSet d k v) k' = dlookup d k' := by
  induction d with
  | nil => simp [dictSet, dlookup, hne]
  | cons kv rest ih =>
      by_cases h : kv.1 = k
      · simp [dictSet, h, dlookup, hne, ih]
      · simp [dictSet, h, dlookup, ih]

theorem dictSet_self_of_dlookup {K V : Type} [DecidableEq K]
    (d : List (K × V)) (k : K) (v : V) (h : dlookup d k = some v) :
    dictSet d k v = d := by
  induction d with
  | nil => simp [dlookup] at h
  | cons kv rest ih =>
      obtain ⟨k1, v1⟩ := kv
      by_cases hk : k1 = k
      · subst hk
        simp [dlookup] at h
        simp [dictSet, h]
      · simp [dlookup, hk] at h
        simp [dictSet, hk, ih h]

/-! ## `font_normalizer.py`

```python
VISUAL_TO_NUMERIC = {"regular": 400, "medium": 500, "semibold": 600,
                     "bold": 700, "extrabold": 800, "black": 900, "thin": 100}

def closest_weight(requested, available):
    if not available:
        return 400
    return min(available, key=lambda w: abs(w - requested))

def normalize_font_and_weight(primary_font, fallback_font, visual_weight):
    requested_weight = VISUAL_TO_NUMERIC.get(visual_weight.lower(), 400)
    if primary_font in GOOGLE_FONTS:
        return primary_font, closest_weight(requested_weight, GOOGLE_FONTS[primary_font])
    if fallback_font in GOOGLE_FONTS:
        return fallback_font, closest_weight(requested_weight, GOOGLE_FONTS[fallback_font])
    return "Inter", 400
```

The process-global `GOOGLE_FONTS` dict (loaded from a cache file or a network
fetch in `google_fonts.py`) is passed explicitly as a `Catalog` parameter, so
the resolver is a pure function.  `str.lower()` is embedded as `pyLower`
below (they agree on the ASCII keys of the label table).  Python's
`min(xs, key=f)` returns the first element attaining the minimal key; the
`foldl` below replaces the current best only on a strictly smaller key, which
is exactly that semantics. -/

abbrev Catalog := List (String × List Int)

def VISUAL_TO_NUMERIC : List (String × Int) :=
  [("regular", 400), ("medium", 500), ("semibold", 600), ("bold", 700),
   ("extrabold", 800), ("black", 900), ("thin", 100)]

def weightDist (requested w : Int) : Nat := (w - requested).natAbs

def closest_weight (requested : Int) (available : List Int) : Int :=
  match available with
  | [] => 400
  | w :: ws =>
      ws.foldl (fun best x =>
        if weightDist requested x < weightDist requested best then x else best) w

/-- `str.lower()` restricted to its ASCII action (the label-table keys are all
ASCII, so this agrees with CPython on every lookup that can hit the table). -/
def pyLowerChar (c : Char) : Char :=
  if 65 ≤ c.toNat ∧ c.toNat ≤ 90 then Char.ofNat (c.toNat + 32) else c

def pyLower (s : String) : String := String.mk (s.toList.map pyLowerChar)

/-- `str.upper()` restricted to its ASCII action. -/
def pyUpperChar (c : Char) : Char :=
  if 97 ≤ c.toNat ∧ c.toNat ≤ 122 then Char.ofNat (c.toNat - 32) else c

def pyUpper (s : String) : String := String.mk (s.toList.map pyUpperChar)

def requestedWeight (visual_weight : String) : Int :=
  (dlookup VISUAL_TO_NUMERIC (pyLower visual_weight)).getD 400

def normalize_font_and_weight (fonts : Catalog)
    (primary_font fallback_font visual_weight : String) : String × Int :=
  let requested := requestedWeight visual_weight
  match dlookup fonts primary_font with
  | some weights => (primary_font, closest_weight requested weights)
  | none =>
      match dlookup fonts fallback_font with
      | some weights => (fallback_font, closest_weight requested weights)
      | none => ("Inter", 400)

/-! Spec-side characterisation of nearest-weight selection: the chosen weight
is a member of the family's weight set at minimal absolute distance from the
target. -/

def IsNearest (target : Int) (ws : List Int) (w : Int) : Prop :=
  w ∈ ws ∧ ∀ v ∈ ws, weightDist target w ≤ weightDist target v

theorem foldl_min_mem (f : Int → Nat) :
    ∀ (xs : List Int) (b : Int),
      (xs.foldl (fun best x => if f x < f best then x else best) b = b ∨
       xs.foldl (fun best x => if f x < f best then x else best) b ∈ xs) := by
  intro xs
  induction xs with
  | nil => intro b; left; rfl
  | cons x rest ih =>
      intro b
      simp only [List.foldl_cons]
      by_cases h : f x < f b
      · simp only [if_pos h]
        rcases ih x with h1 | h1
        · right; rw [h1]; exact List.mem_cons_self x rest
        · right; exact List.mem_cons_of_mem x h1
      · simp only [if_neg h]
        rcases ih b with h1 | h1
        · left; exact h1
        · right; exact List.mem_cons_of_mem x h1

theorem foldl_min_le (f : Int → Nat) :
    ∀ (xs : List Int) (b : Int),
      f (xs.foldl (fun best x => if f x < f best then x else best) b) ≤ f b ∧
      ∀ v ∈ xs, f (xs.foldl (fun best x => if f x < f best then x else best) b) ≤ f v := by
  intro xs
  induction xs with
  | nil => intro b; exact ⟨le_refl _, by intro v hv; cases hv⟩
  | cons x rest ih =>
      intro b
      simp only [List.foldl_cons]
      by_cases h : f x < f b
      · simp only [if_pos h]
        refine ⟨le_trans (ih x).1 (le_of_lt h), ?_⟩
        intro v hv
        rcases List.mem_cons.mp hv with rfl | hv
        · exact (ih v).1
        · exact (ih x).2 v hv
      · simp only [if_neg h]
        refine ⟨(ih b).1, ?_⟩
        intro v hv
        rcases List.mem_cons.mp hv with rfl | hv
        · exact le_trans (ih b).1 (not_lt.mp h)
        · exact (ih b).2 v hv

theorem closest_weight_isNearest (target : Int) (ws : List Int) (hne : ws ≠ []) :
    IsNearest target ws (closest_weight target ws) := by
  cases ws with
  | nil => exact absurd rfl hne
  | cons w rest =>
      constructor
      · rcases foldl_min_mem (weightDist target) rest w with h | h
        · rw [closest_weight, h]; exact List.mem_cons_self w rest
        · exact List.mem_cons_of_mem w h
      · intro v hv
        rcases List.mem_cons.mp hv with rfl | hv
        · exact (foldl_min_le (weightDist target) rest v).1
        · exact (foldl_min_le (weightDist target) rest w).2 v hv

theorem closest_weight_mem (target : Int) (ws : List Int) (hne : ws ≠ []) :
    closest_weight target ws ∈ ws :=
  (closest_weight_isNearest target ws hne).1

/-! Tie-breaking: Python's `min` keeps the first element attaining the minimal
key, so when the weight list is in ascending order an equidistant tie is
resolved to the lower weight. -/

theorem foldl_min_tie (f : Int → Nat) :
    ∀ (xs : List Int) (b : Int), (∀ x ∈ xs, b ≤ x) → List.Sorted (· ≤ ·) xs →
      ((f b = f (xs.foldl (fun best x => if f x < f best then x else best) b) →
        xs.foldl (fun best x => if f x < f best then x else best) b ≤ b) ∧
       (∀ v ∈ xs, f v = f (xs.foldl (fun best x => if f x < f best then x else best) b) →
        xs.foldl (fun best x => if f x < f best then x else best) b ≤ v)) := by
  intro xs
  induction xs with
  | nil =>
      intro b _ _
      exact ⟨fun _ => le_refl b, by intro v hv; cases hv⟩
  | cons x rest ih =>
      intro b hb hs
      have hx : ∀ y ∈ rest, x ≤ y := fun y hy => (List.pairwise_cons.mp hs).1 y hy
      have hs' : List.Sorted (· ≤ ·) rest := (List.pairwise_cons.mp hs).2
      have hbx : b ≤ x := hb x (List.mem_cons_self x rest)
      simp only [List.foldl_cons]
      by_cases h : f x < f b
      · simp only [if_pos h]
        have ihx := ih x hx hs'
        have hle := (foldl_min_le f rest x).1
        constructor
        · intro hfb
          exact absurd (hfb ▸ lt_of_le_of_lt hle h) (lt_irrefl _)
        · intro v hv hfv
          rcases List.mem_cons.mp hv with rfl | hv
          · exact ihx.1 hfv
          · exact ihx.2 v hv hfv
      · simp only [if_neg h]
        have ihb := ih b (fun y hy => le_trans hbx (hx y hy)) hs'
        have hle := (foldl_min_le f rest b).1
        constructor
        · exact ihb.1
        · intro v hv hfv
          rcases List.mem_cons.mp hv with rfl | hv
          · have hfbv : f b ≤ f v := not_lt.mp h
            rcases foldl_min_mem f rest b with hm | hm
            · rw [hm]; exact hbx
            · have h1 : f (rest.foldl (fun best x => if f x < f best then x else best) b) ≤ f b := hle
              have h2 : f b = f (rest.foldl (fun best x => if f x < f best then x else best) b) :=
                le_antisymm (hfv ▸ hfbv) h1
              exact le_trans (ihb.1 h2) hbx
          · exact ihb.2 v hv hfv

theorem closest_weight_tie_lower (target : Int) (ws : List Int)
    (hne : ws ≠ []) (hsort : List.Sorted (· < ·) ws) :
    ∀ v ∈ ws, weightDist target v = weightDist target (closest_weight target ws) →
      closest_weight target ws ≤ v := by
  cases ws with
  | nil => exact absurd rfl hne
  | cons w rest =>
      have hw : ∀ y ∈ rest, w ≤ y :=
        fun y hy => le_of_lt ((List.pairwise_cons.mp hsort).1 y hy)
      have hs' : List.Sorted (· ≤ ·) rest :=
        ((List.pairwise_cons.mp hsort).2).imp (fun h => le_of_lt h)
      intro v hv hfv
      rcases List.mem_cons.mp hv with rfl | hv
      · exact (foldl_min_tie (weightDist target) rest v hw hs').1 hfv
      · exact (foldl_min_tie (weightDist target) rest w hw hs').2 v hv hfv

/-! ## Claims C1, C2, C3 — the font/weight resolver -/

/-- C1: For every primary family, fallback family, and weight label (all
strings), `normalize_font_and_weight` follows the fallback chain: the label is
mapped case-insensitively (via `toLower` inside `requestedWeight`) through the
fixed label table, unknown labels defaulting to 400; if the primary family is
a catalog key the primary family is returned with the nearest catalog weight;
otherwise, if the fallback family is a catalog key, it is returned with the
nearest catalog weight; otherwise `("Inter", 400)` is returned regardless of
the weight label.  The function is total over all string inputs (it is a Lean
`def`, so it never raises).  Nearest-weight selection presupposes a non-empty
weight list; the degenerate empty-weight-list case is settled under C2. -/
theorem resolve_fallback_chain (fonts : Catalog) (primary fallback label : String) :
    (dlookup VISUAL_TO_NUMERIC (pyLower label) = none → requestedWeight label = 400) ∧
    (∀ ws, dlookup fonts primary = some ws → ws ≠ [] →
      (normalize_font_and_weight fonts primary fallback label).1 = primary ∧
      IsNearest (requestedWeight label) ws
        (normalize_font_and_weight fonts primary fallback label).2) ∧
    (dlookup fonts primary = none →
      ∀ ws, dlookup fonts fallback = some ws → ws ≠ [] →
      (normalize_font_and_weight fonts primary fallback label).1 = fallback ∧
      IsNearest (requestedWeight label) ws
        (normalize_font_and_weight fonts primary fallback label).2) ∧
    (dlookup fonts primary = none → dlookup fonts fallback = none →
      normalize_font_and_weight fonts primary fallback label = ("Inter", 400)) := by
  refine ⟨?_, ?_, ?_, ?_⟩
  · intro h
    simp [requestedWeight, h]
  · intro ws hws hne
    simp only [normalize_font_and_weight, hws]
    exact ⟨trivial, closest_weight_isNearest _ ws hne⟩
  · intro hp ws hws hne
    simp only [normalize_font_and_weight, hp, hws]
    exact ⟨trivial, closest_weight_isNearest _ ws hne⟩
  · intro hp hf
    simp [normalize_font_and_weight, hp, hf]

theorem resolve_fallback_chain_witness :
    ((normalize_font_and_weight [("Roboto", [400, 700])] "Nope" "Roboto" "bold").1 = "Roboto" ∧
      IsNearest (requestedWeight "bold") [400, 700]
        (normalize_font_and_weight [("Roboto", [400, 700])] "Nope" "Roboto" "bold").2) ∧
    normalize_font_and_weight [] "Foo" "Bar" "BLACK" = ("Inter", 400) :=
  ⟨(resolve_fallback_chain [("Roboto", [400, 700])] "Nope" "Roboto" "bold").2.2.1
      (by decide) [400, 700] (by decide) (by decide),
   (resolve_fallback_chain [] "Foo" "Bar" "BLACK").2.2.2 (by decide) (by decide)⟩

/-- C2 (counterexample): with the catalog `{"Ghost": []}`, resolving primary
family `"Ghost"` returns `("Ghost", 400)`: the returned weight 400 is not a
member of the family's (empty) supported weight set and the returned pair is
not `("Inter", 400)`, so a matched family with an empty weight set is *not*
treated as unusable — resolution does not fall through to the next
candidate. -/
theorem resolve_empty_weights_cex :
    normalize_font_and_weight [("Ghost", [])] "Ghost" "Inter" "bold" = ("Ghost", 400) ∧
    dlookup [("Ghost", ([] : List Int))] "Ghost" = some [] ∧
    (400 : Int) ∉ ([] : List Int) ∧
    ("Ghost", (400 : Int)) ≠ ("Inter", (400 : Int)) := by
  refine ⟨by decide, by decide, by decide, by decide⟩

/-- C2 (amended): for every catalog and every input, the pair returned by
`normalize_font_and_weight` satisfies: the returned weight is a member of the
returned family's non-empty supported weight set in the catalog, OR the
returned pair is exactly `("Inter", 400)`, OR the returned family is a catalog
key with an *empty* weight set and the returned weight is the default 400 (an
empty weight set does not fall through to the next candidate:
`closest_weight` returns 400 for it). -/
theorem resolve_weight_in_catalog_or_default (fonts : Catalog)
    (primary fallback label : String) :
    (∃ ws, dlookup fonts (normalize_font_and_weight fonts primary fallback label).1
        = some ws ∧ ws ≠ [] ∧
        (normalize_font_and_weight fonts primary fallback label).2 ∈ ws) ∨
    normalize_font_and_weight fonts primary fallback label = ("Inter", 400) ∨
    (∃ ws, dlookup fonts (normalize_font_and_weight fonts primary fallback label).1
        = some ws ∧ ws = [] ∧
        (normalize_font_and_weight fonts primary fallback label).2 = 400) := by
  by_cases hp : (dlookup fonts primary).isSome
  · obtain ⟨ws, hws⟩ := Option.isSome_iff_exists.mp hp
    by_cases hne : ws = []
    · right; right
      refine ⟨ws, ?_, hne, ?_⟩
      · simp only [normalize_font_and_weight, hws]
      · subst hne; simp [normalize_font_and_weight, hws, closest_weight]
    · left
      refine ⟨ws, ?_, hne, ?_⟩
      · simp only [normalize_font_and_weight, hws]
      · simp only [normalize_font_and_weight, hws]
        exact closest_weight_mem _ ws hne
  · have hp' : dlookup fonts primary = none := Option.not_isSome_iff_eq_none.mp hp
    by_cases hf : (dlookup fonts fallback).isSome
    · obtain ⟨ws, hws⟩ := Option.isSome_iff_exists.mp hf
      by_cases hne : ws = []
      · right; right
        refine ⟨ws, ?_, hne, ?_⟩
        · simp only [normalize_font_and_weight, hp', hws]
        · subst hne; simp [normalize_font_and_weight, hp', hws, closest_weight]
      · left
        refine ⟨ws, ?_, hne, ?_⟩
        · simp only [normalize_font_and_weight, hp', hws]
        · simp only [normalize_font_and_weight, hp', hws]
          exact closest_weight_mem _ ws hne
    · have hf' : dlookup fonts fallback = none := Option.not_isSome_iff_eq_none.mp hf
      right; left
      simp [normalize_font_and_weight, hp', hf']

/-- C3: for every family weight list that is non-empty, ascending and
duplicate-free (strictly sorted), the weight selected by `closest_weight` is a
member of the list minimising the absolute numeric distance to the target, and
an equidistant tie is resolved to the lower weight (Python's `min` keeps the
first minimum of the ascending list); concretely, with catalog
`Roboto → [100, 400, 900]` and label `"bold"` (target 700), the resolver
returns `("Roboto", 900)`. -/
theorem nearest_weight_minimizes :
    (∀ (target : Int) (ws : List Int), ws ≠ [] → List.Sorted (· < ·) ws →
      closest_weight target ws ∈ ws ∧
      (∀ v ∈ ws, weightDist target (closest_weight target ws) ≤ weightDist target v) ∧
      (∀ v ∈ ws, weightDist target v = weightDist target (closest_weight target ws) →
        closest_weight target ws ≤ v)) ∧
    normalize_font_and_weight [("Roboto", [100, 400, 900])] "Roboto" "Arial" "bold"
      = ("Roboto", 900) := by
  refine ⟨?_, by decide⟩
  intro target ws hne hs
  exact ⟨(closest_weight_isNearest target ws hne).1,
         (closest_weight_isNearest target ws hne).2,
         closest_weight_tie_lower target ws hne hs⟩

theorem nearest_weight_minimizes_witness :
    closest_weight 700 [100, 400, 900] ∈ [100, 400, 900] ∧
    (∀ v ∈ [(100 : Int), 400, 900],
      weightDist 700 (closest_weight 700 [100, 400, 900]) ≤ weightDist 700 v) ∧
    (∀ v ∈ [(100 : Int), 400, 900],
      weightDist 700 v = weightDist 700 (closest_weight 700 [100, 400, 900]) →
        closest_weight 700 [100, 400, 900] ≤ v) :=
  nearest_weight_minimizes.1 700 [100, 400, 900] (by decide) (by decide)

/-! ## `process_pipeline.py` — `merge_results`

```python
def merge_results(craft_result, gemini_result):
    merged_regions = []
    gemini_map = {}
    for item in gemini_result:
        filename = item['crop']  # e.g. region_1.png
        try:
            region_id = int(filename.split('_')[1].split('.')[0])
            gemini_map[region_id] = item['analysis']
        except (IndexError, ValueError):
            print(f"Warning: Could not parse ID from filename {filename}")
            continue
    for region in craft_result['text_regions']:
        rid = region['id']
        merged_region = region.copy()
        if rid in gemini_map:
            merged_region['analysis'] = gemini_map[rid]
        else:
            merged_region['analysis'] = None
        merged_regions.append(merged_region)
    final_output = craft_result.copy()
    final_output['text_regions'] = merged_regions
    return final_output
```

`str.split(sep)` for a one-character separator is embedded as `pySplit`;
`int(str)` as `pyInt` (optional surrounding ASCII whitespace, an optional
sign, then at least one ASCII digit; CPython additionally accepts underscores
between digits and non-ASCII digits, which cannot occur in tokens produced by
splitting on an underscore and are not exercised by any theorem below).  The
`try/except (IndexError, ValueError)` around the id extraction is embedded by
`extractId` returning `Option Int`: `none` is the caught-and-dropped case.
The analysis payload attached to each item is kept generic in a type `α`. -/

def splitOnChar (sep : Char) : List Char → List (List Char)
  | [] => [[]]
  | c :: rest =>
      let r := splitOnChar sep rest
      if c = sep then [] :: r
      else
        match r with
        | [] => [[c]]
        | t :: ts => (c :: t) :: ts

def pySplit (s : String) (sep : Char) : List String :=
  (splitOnChar sep s.toList).map String.mk

def digitsVal (cs : List Char) : Nat :=
  cs.foldl (fun a c => a * 10 + (c.toNat - 48)) 0

def pyInt (s : String) : Option Int :=
  let stripped := ((s.toList.dropWhile Char.isWhitespace).reverse.dropWhile
      Char.isWhitespace).reverse
  match stripped with
  | [] => none
  | '+' :: ds =>
      if ds ≠ [] ∧ ds.all Char.isDigit then some (digitsVal ds) else none
  | '-' :: ds =>
      if ds ≠ [] ∧ ds.all Char.isDigit then some (-(digitsVal ds : Int)) else none
  | ds => if ds.all Char.isDigit then some (digitsVal ds) else none

def extractId (filename : String) : Option Int :=
  match (pySplit filename '_').get? 1 with
  | none => none
  | some tok =>
      match pySplit tok '.' with
      | [] => none
      | first :: _ => pyInt first

structure Region where
  id : Int
  fields : List (String × String)
deriving DecidableEq

structure GeminiItem (α : Type) where
  crop : String
  analysis : α
deriving DecidableEq

structure MergedRegion (α : Type) where
  region : Region
  analysis : Option α
deriving DecidableEq

structure CraftResult where
  text_regions : List Region
  meta : List (String × String)
deriving DecidableEq

structure MergedResult (α : Type) where
  text_regions : List (MergedRegion α)
  meta : List (String × String)
deriving DecidableEq

def geminiMapStep {α : Type} (m : List (Int × α)) (it : GeminiItem α) : List (Int × α) :=
  match extractId it.crop with
  | some rid => dictSet m rid it.analysis
  | none => m

def buildGeminiMap {α : Type} (items : List (GeminiItem α)) : List (Int × α) :=
  items.foldl geminiMapStep []

def merge_results {α : Type} (craft : CraftResult) (gemini : List (GeminiItem α)) :
    MergedResult α :=
  let gmap := buildGeminiMap gemini
  { text_regions :=
      craft.text_regions.map (fun r => { region := r, analysis := dlookup gmap r.id }),
    meta := craft.meta }

/-- The analysis payload used by the concrete counterexamples: either a
well-formed field record or the spec's error sentinel. -/
inductive Analysis where
  | fields : List (String × String) → Analysis
  | errSentinel : String → Analysis
deriving DecidableEq

theorem buildGeminiMap_foldl_filter {α : Type} :
    ∀ (items : List (GeminiItem α)) (m : List (Int × α)),
      (items.filter (fun it => (extractId it.crop).isSome)).foldl geminiMapStep m
        = items.foldl geminiMapStep m := by
  intro items
  induction items with
  | nil => intro m; rfl
  | cons it rest ih =>
      intro m
      by_cases h : (extractId it.crop).isSome
      · simp only [List.filter_cons, h, if_pos, List.foldl_cons, ih]
      · have hnone : extractId it.crop = none := Option.not_isSome_iff_eq_none.mp h
        have hstep : geminiMapStep m it = m := by simp [geminiMapStep, hnone]
        simp only [List.filter_cons, List.foldl_cons, hstep]
        simp only [h, Bool.false_eq_true, if_false, ih]

theorem buildGeminiMap_append_single {α : Type}
    (items : List (GeminiItem α)) (it : GeminiItem α) (rid : Int) :
    dlookup (buildGeminiMap (items ++ [it])) rid =
      match extractId it.crop with
      | some r => if r = rid then some it.analysis else dlookup (buildGeminiMap items) rid
      | none => dlookup (buildGeminiMap items) rid := by
  have h1 : buildGeminiMap (items ++ [it]) = geminiMapStep (buildGeminiMap items) it := by
    simp [buildGeminiMap, List.foldl_append]
  rw [h1]
  cases hid : extractId it.crop with
  | none => simp [geminiMapStep, hid]
  | some r =>
      simp only [geminiMapStep, hid]
      by_cases hr : r = rid
      · subst hr
        simp [dlookup_dictSet_self]
      · simp [dlookup_dictSet_ne _ _ _ _ hr, hr]

/-! ## Claims C6, C7, C8 — the merge engine -/

/-- C6: for every region sequence and analysis sequence, `merge_results`
produces exactly one output record per input region, in the same relative
order: the output length equals the input length and the i-th output record's
id equals the i-th input region's id; an empty region sequence yields an empty
output. -/
theorem merge_preserves_count_and_order {α : Type}
    (craft : CraftResult) (gemini : List (GeminiItem α)) :
    ((merge_results craft gemini).text_regions.map (fun m => m.region.id)
      = craft.text_regions.map (fun r => r.id)) ∧
    ((merge_results craft gemini).text_regions.length = craft.text_regions.length) ∧
    (∀ (i : Nat) (h1 : i < (merge_results craft gemini).text_regions.length)
        (h2 : i < craft.text_regions.length),
      ((merge_results craft gemini).text_regions.get ⟨i, h1⟩).region.id
        = (craft.text_regions.get ⟨i, h2⟩).id) ∧
    (craft.text_regions = [] → (merge_results craft gemini).text_regions = []) := by
  refine ⟨?_, ?_, ?_, ?_⟩
  · simp [merge_results]
  · simp [merge_results]
  · intro i h1 h2
    simp [merge_results]
  · intro h
    simp [merge_results, h]

theorem merge_preserves_count_and_order_witness :
    ((merge_results ⟨[⟨3, []⟩, ⟨1, []⟩], []⟩
        ([⟨"region_1.png", Analysis.fields []⟩] : List (GeminiItem Analysis))).text_regions.map
        (fun m => m.region.id) = [3, 1]) ∧
    ((merge_results (⟨[], []⟩ : CraftResult)
        ([⟨"region_1.png", Analysis.fields []⟩] : List (GeminiItem Analysis))).text_regions
      = []) :=
  ⟨(merge_preserves_count_and_order ⟨[⟨3, []⟩, ⟨1, []⟩], []⟩
      [⟨"region_1.png", Analysis.fields []⟩]).1,
   (merge_preserves_count_and_order ⟨[], []⟩
      [⟨"region_1.png", Analysis.fields []⟩]).2.2.2 rfl⟩

/-- C7 (counterexample): a region whose matching analysis is an error sentinel
does *not* get `analysis = null` from `merge_results`: the sentinel value is
attached as-is.  With one region of id 1 and one analysis entry whose payload
is the error sentinel, the merged record carries
`some (errSentinel "Gemini failed")`, not `none`. -/
theorem merge_error_sentinel_cex :
    ((merge_results ⟨[⟨1, []⟩], []⟩
        [⟨"region_1.png", Analysis.errSentinel "Gemini failed"⟩]).text_regions.map
        (fun m => m.analysis)
      = [some (Analysis.errSentinel "Gemini failed")]) ∧
    some (Analysis.errSentinel "Gemini failed") ≠ (none : Option Analysis) := by
  exact ⟨by decide, by decide⟩

/-- C7 (amended): for every region in the input, if no analysis in the lookup
matches the region's id the merged record carries `analysis = none` (the
embedded `style = null`), and if a lookup entry matches — even an error
sentinel — that entry is attached as-is; the merge never raises for such
per-region problems and a missing or unparsable analysis never blocks the
merging of the other regions (every input region yields exactly one output
record). -/
theorem merge_missing_analysis_null {α : Type}
    (craft : CraftResult) (gemini : List (GeminiItem α)) :
    ((merge_results craft gemini).text_regions.length = craft.text_regions.length) ∧
    (∀ m ∈ (merge_results craft gemini).text_regions,
      (dlookup (buildGeminiMap gemini) m.region.id = none → m.analysis = none) ∧
      (∀ a, dlookup (buildGeminiMap gemini) m.region.id = some a → m.analysis = some a)) := by
  constructor
  · simp [merge_results]
  · intro m hm
    simp only [merge_results, List.mem_map] at hm
    obtain ⟨r, _, rfl⟩ := hm
    constructor
    · intro h; simpa using h
    · intro a h; simpa using h

theorem merge_missing_analysis_null_witness :
    (dlookup (buildGeminiMap ([] : List (GeminiItem Analysis))) (2 : Int) = none →
      (MergedRegion.mk ⟨2, []⟩ (dlookup (buildGeminiMap ([] : List (GeminiItem Analysis))) 2)).analysis = none) ∧
    (∀ a, dlookup (buildGeminiMap ([] : List (GeminiItem Analysis))) (2 : Int) = some a →
      (MergedRegion.mk ⟨2, []⟩ (dlookup (buildGeminiMap ([] : List (GeminiItem Analysis))) 2)).analysis = some a) :=
  (merge_missing_analysis_null (⟨[⟨2, []⟩], []⟩ : CraftResult)
    ([] : List (GeminiItem Analysis))).2
    (MergedRegion.mk ⟨2, []⟩ (dlookup (buildGeminiMap ([] : List (GeminiItem Analysis))) 2))
    (by decide)

/-- C8: identifier extraction from a crop filename splits on underscore, takes
the second token, splits that on a dot, takes the first token and parses it as
an integer (`extractId`); a filename with fewer than two underscore-separated
tokens (or an unparsable number) yields `none`, and every analysis whose
filename does not conform is excluded from the lookup (filtering them away
leaves `buildGeminiMap` unchanged); when two analyses share the same id, the
later one in input order wins (appending an entry overrides any earlier entry
with the same id). -/
theorem id_extraction_and_last_write_wins :
    (extractId "region_12.png" = some 12) ∧
    (extractId "crop_007.v2.png" = some 7) ∧
    (extractId "badname.png" = none) ∧
    (extractId "region_x.png" = none) ∧
    (∀ f : String, (pySplit f '_').get? 1 = none → extractId f = none) ∧
    (∀ (items : List (GeminiItem Analysis)),
      buildGeminiMap (items.filter (fun it => (extractId it.crop).isSome))
        = buildGeminiMap items) ∧
    (∀ (items : List (GeminiItem Analysis)) (it : GeminiItem Analysis) (rid : Int),
      extractId it.crop = some rid →
        dlookup (buildGeminiMap (items ++ [it])) rid = some it.analysis) := by
  refine ⟨by decide, by decide, by decide, by decide, ?_, ?_, ?_⟩
  · intro f h
    simp only [List.get?_eq_getElem?] at h
    simp [extractId, h]
  · intro items
    exact buildGeminiMap_foldl_filter items []
  · intro items it rid h
    rw [buildGeminiMap_append_single items it rid, h]
    simp

theorem id_extraction_and_last_write_wins_witness :
    dlookup (buildGeminiMap
        ([⟨"region_5.png", Analysis.fields [("text", "old")]⟩,
          ⟨"region_5.png", Analysis.fields [("text", "new")]⟩] : List (GeminiItem Analysis)))
        (5 : Int)
      = some (Analysis.fields [("text", "new")]) :=
  id_extraction_and_last_write_wins.2.2.2.2.2.2
    [⟨"region_5.png", Analysis.fields [("text", "old")]⟩]
    ⟨"region_5.png", Analysis.fields [("text", "new")]⟩ 5 (by decide)

/-! ## Heap model for frame effects (claim C9)

`pipeline_utils.py`:

```python
def normalize_analysis_data(analysis_data):
    normalized_data = []
    for item in analysis_data:
        analysis = item.get("analysis", {})
        primary_font = analysis.get("primary_font", "")
        fallback_font = analysis.get("fallback_font", "")
        visual_weight = analysis.get("font_weight", "regular")
        final_font, final_weight = normalize_font_and_weight(
            primary_font, fallback_font, visual_weight)
        new_item = item.copy()
        new_item["analysis"]["normalized_font"] = final_font
        new_item["analysis"]["normalized_weight"] = final_weight
        normalized_data.append(new_item)
    return normalized_data
```

Whether these functions modify their arguments is a statement about Python's
object graph, so for claim C9 the nested dictionaries are modelled through an
explicit heap: an `AnalysisItem` holds its `crop` string and a *reference*
(heap index) to its `analysis` dict, and `item.copy()` is a shallow copy — the
copy shares the `analysis` reference, exactly as in CPython.  The write
`new_item["analysis"]["normalized_font"] = ...` therefore updates the heap
cell that the *input* item also references.  `merge_results` is modelled on
the same heap for its region dicts: `region.copy()` allocates a fresh cell
(appended at the end of the heap) and the `'analysis'` key is written only on
that fresh cell.  Field reads assume string-valued font fields and an
int-valued region id, as produced by the pipeline (a non-string font field
would raise `AttributeError` in `visual_weight.lower()`, unhandled in the
source, and a missing region id would raise `KeyError`). -/

inductive PVal where
  | pstr : String → PVal
  | pint : Int → PVal
  | pnone : PVal
deriving DecidableEq

abbrev PDict := List (String × PVal)

abbrev Heap := List PDict

structure AnalysisItem where
  crop : String
  analysisRef : Nat
deriving DecidableEq

def getStrField (d : PDict) (k : String) (dflt : String) : String :=
  match dlookup d k with
  | some (.pstr s) => s
  | _ => dflt

/-- The `(final_font, final_weight)` pair computed for one analysis dict:
`normalize_font_and_weight(analysis.get("primary_font", ""),
analysis.get("fallback_font", ""), analysis.get("font_weight", "regular"))`. -/
def dictResolved (fonts : Catalog) (d : PDict) : String × Int :=
  normalize_font_and_weight fonts (getStrField d "primary_font" "")
    (getStrField d "fallback_font" "") (getStrField d "font_weight" "regular")

/-- The two writes `new_item["analysis"]["normalized_font"] = final_font` and
`new_item["analysis"]["normalized_weight"] = final_weight`, performed on the
analysis dict itself. -/
def normalizeDict (fonts : Catalog) (d : PDict) : PDict :=
  dictSet (dictSet d "normalized_font" (.pstr (dictResolved fonts d).1))
    "normalized_weight" (.pint (dictResolved fonts d).2)

def normalizeStep (fonts : Catalog) (acc : Heap × List AnalysisItem)
    (it : AnalysisItem) : Heap × List AnalysisItem :=
  let d := acc.1.getD it.analysisRef []
  (acc.1.set it.analysisRef (normalizeDict fonts d),
   acc.2 ++ [⟨it.crop, it.analysisRef⟩])

def normalize_analysis_data (fonts : Catalog) (heap : Heap)
    (items : List AnalysisItem) : Heap × List AnalysisItem :=
  items.foldl (normalizeStep fonts) (heap, [])

def mergeRegionStep (gmap : List (Int × PVal)) (acc : Heap × List Nat)
    (r : Nat) : Heap × List Nat :=
  let d := acc.1.getD r []
  let rid : Int := match dlookup d "id" with | some (.pint n) => n | _ => 0
  let v := match dlookup gmap rid with | some a => a | none => PVal.pnone
  (acc.1 ++ [dictSet d "analysis" v], acc.2 ++ [acc.1.length])

def merge_results_heap (heap : Heap) (regionRefs : List Nat)
    (gmap : List (Int × PVal)) : Heap × List Nat :=
  regionRefs.foldl (mergeRegionStep gmap) (heap, [])

/-! List-update helper lemmas. -/

theorem lset_oob {α : Type} : ∀ (l : List α) (n : Nat) (a : α),
    l.length ≤ n → l.set n a = l := by
  intro l
  induction l with
  | nil => intro n a _; rfl
  | cons x xs ih =>
      intro n a h
      cases n with
      | zero => exact absurd h (by simp)
      | succ m => simp [List.set, ih m a (Nat.le_of_succ_le_succ h)]

theorem lgetD_set_self {α : Type} (dflt : α) : ∀ (l : List α) (n : Nat) (a : α),
    n < l.length → (l.set n a).getD n dflt = a := by
  intro l
  induction l with
  | nil => intro n a h; cases h
  | cons x xs ih =>
      intro n a h
      cases n with
      | zero => rfl
      | succ m => exact ih m a (Nat.lt_of_succ_lt_succ h)

theorem lgetD_set_ne {α : Type} (dflt : α) : ∀ (l : List α) (n m : Nat) (a : α),
    n ≠ m → (l.set n a).getD m dflt = l.getD m dflt := by
  intro l
  induction l with
  | nil => intro n m a _; rfl
  | cons x xs ih =>
      intro n m a h
      cases n with
      | zero =>
          cases m with
          | zero => exact absurd rfl h
          | succ m' => rfl
      | succ n' =>
          cases m with
          | zero => rfl
          | succ m' => exact ih n' m' a (fun he => h (by rw [he]))

theorem lset_getD_self {α : Type} (dflt : α) : ∀ (l : List α) (n : Nat),
    n < l.length → l.set n (l.getD n dflt) = l := by
  intro l
  induction l with
  | nil => intro n h; cases h
  | cons x xs ih =>
      intro n h
      cases n with
      | zero => rfl
      | succ m =>
          have hih := ih m (Nat.lt_of_succ_lt_succ h)
          simp only [List.getD] at hih ⊢
          simpa [List.set] using hih

/-! Idempotence of the per-dict normalisation write-back: the three font
fields read by `dictResolved` are distinct from the two keys written, so a
second pass computes the same pair and its writes replace equal values in
place. -/

theorem dictResolved_normalizeDict (fonts : Catalog) (d : PDict) :
    dictResolved fonts (normalizeDict fonts d) = dictResolved fonts d := by
  have h : ∀ k : String, k ≠ "normalized_font" → k ≠ "normalized_weight" →
      dlookup (normalizeDict fonts d) k = dlookup d k := by
    intro k h1 h2
    unfold normalizeDict
    rw [dlookup_dictSet_ne _ _ _ _ (fun he => h2 he.symm),
        dlookup_dictSet_ne _ _ _ _ (fun he => h1 he.symm)]
  unfold dictResolved getStrField
  rw [h "primary_font" (by decide) (by decide),
      h "fallback_font" (by decide) (by decide),
      h "font_weight" (by decide) (by decide)]

theorem normalizeDict_idem (fonts : Catalog) (d : PDict) :
    normalizeDict fonts (normalizeDict fonts d) = normalizeDict fonts d := by
  have key : normalizeDict fonts (normalizeDict fonts d) =
      dictSet (dictSet (normalizeDict fonts d) "normalized_font"
          (.pstr (dictResolved fonts d).1))
        "normalized_weight" (.pint (dictResolved fonts d).2) := by
    show dictSet (dictSet (normalizeDict fonts d) "normalized_font"
          (.pstr (dictResolved fonts (normalizeDict fonts d)).1))
        "normalized_weight" (.pint (dictResolved fonts (normalizeDict fonts d)).2) = _
    rw [dictResolved_normalizeDict]
  have h1 : dlookup (normalizeDict fonts d) "normalized_font"
      = some (.pstr (dictResolved fonts d).1) := by
    unfold normalizeDict
    rw [dlookup_dictSet_ne _ _ _ _ (by decide)]
    exact dlookup_dictSet_self _ _ _
  have h2 : dlookup (normalizeDict fonts d) "normalized_weight"
      = some (.pint (dictResolved fonts d).2) := by
    unfold normalizeDict
    exact dlookup_dictSet_self _ _ _
  rw [key, dictSet_self_of_dlookup _ _ _ h1, dictSet_self_of_dlookup _ _ _ h2]

/-! Properties of the `normalize_analysis_data` fold. -/

theorem normalize_fold_output (fonts : Catalog) :
    ∀ (items : List AnalysisItem) (heap : Heap) (acc : List AnalysisItem),
      (items.foldl (normalizeStep fonts) (heap, acc)).2 = acc ++ items := by
  intro items
  induction items with
  | nil => intro heap acc; simp
  | cons it rest ih =>
      intro heap acc
      obtain ⟨c, r⟩ := it
      simp only [List.foldl_cons, normalizeStep]
      rw [ih]
      simp

theorem normalize_fold_length (fonts : Catalog) :
    ∀ (items : List AnalysisItem) (heap : Heap) (acc : List AnalysisItem),
      (items.foldl (normalizeStep fonts) (heap, acc)).1.length = heap.length := by
  intro items
  induction items with
  | nil => intro heap acc; rfl
  | cons it rest ih =>
      intro heap acc
      simp only [List.foldl_cons, normalizeStep]
      rw [ih]
      exact List.length_set heap _ _

theorem normalize_fold_cells (fonts : Catalog) :
    ∀ (items : List AnalysisItem) (heap : Heap) (acc : List AnalysisItem) (r : Nat),
      (items.foldl (normalizeStep fonts) (heap, acc)).1.getD r [] = heap.getD r [] ∨
      ∃ d0, (items.foldl (normalizeStep fonts) (heap, acc)).1.getD r []
        = normalizeDict fonts d0 := by
  intro items
  induction items with
  | nil => intro heap acc r; left; rfl
  | cons it rest ih =>
      intro heap acc r
      simp only [List.foldl_cons, normalizeStep]
      rcases ih (heap.set it.analysisRef
          (normalizeDict fonts (heap.getD it.analysisRef []))) (acc ++ [⟨it.crop, it.analysisRef⟩]) r with h | h
      · rw [h]
        by_cases hlt : it.analysisRef < heap.length
        · by_cases hr : it.analysisRef = r
          · subst hr
            right
            exact ⟨heap.getD it.analysisRef [], lgetD_set_self [] heap _ _ hlt⟩
          · left; exact lgetD_set_ne [] heap _ _ _ hr
        · left
          rw [lset_oob heap _ _ (Nat.le_of_not_lt hlt)]
      · right; exact h

theorem normalize_fold_id_of_settled (fonts : Catalog) :
    ∀ (items : List AnalysisItem) (heap : Heap) (acc : List AnalysisItem),
      (∀ it ∈ items, it.analysisRef < heap.length ∧
        normalizeDict fonts (heap.getD it.analysisRef []) = heap.getD it.analysisRef []) →
      items.foldl (normalizeStep fonts) (heap, acc) = (heap, acc ++ items) := by
  intro items
  induction items with
  | nil => intro heap acc _; simp
  | cons it rest ih =>
      intro heap acc h
      obtain ⟨hlt, hst⟩ := h it (List.mem_cons_self it rest)
      obtain ⟨c, r⟩ := it
      simp only [List.foldl_cons, normalizeStep]
      rw [hst, lset_getD_self [] heap r hlt]
      have hih := ih heap (acc ++ [AnalysisItem.mk c r])
        (fun it0 h0 => h it0 (List.mem_cons_of_mem _ h0))
      rw [hih]
      simp

theorem normalize_fold_settles (fonts : Catalog) :
    ∀ (items : List AnalysisItem) (heap : Heap) (acc : List AnalysisItem),
      (∀ it ∈ items, it.analysisRef < heap.length) →
      ∀ it0 ∈ items, ∃ d0,
        (items.foldl (normalizeStep fonts) (heap, acc)).1.getD it0.analysisRef []
          = normalizeDict fonts d0 := by
  intro items
  induction items with
  | nil => intro heap acc _ it0 h0; cases h0
  | cons it rest ih =>
      intro heap acc h it0 h0
      have hlt : it.analysisRef < heap.length := h it (List.mem_cons_self it rest)
      simp only [List.foldl_cons, normalizeStep]
      rcases List.mem_cons.mp h0 with rfl | h0
      · rcases normalize_fold_cells fonts rest
            (heap.set it0.analysisRef (normalizeDict fonts (heap.getD it0.analysisRef [])))
            (acc ++ [⟨it0.crop, it0.analysisRef⟩]) it0.analysisRef with hc | hc
        · rw [hc, lgetD_set_self [] heap _ _ hlt]
          exact ⟨heap.getD it0.analysisRef [], rfl⟩
        · exact hc
      · exact ih (heap.set it.analysisRef (normalizeDict fonts (heap.getD it.analysisRef [])))
          (acc ++ [⟨it.crop, it.analysisRef⟩])
          (fun it1 h1 => by rw [List.length_set]; exact h it1 (List.mem_cons_of_mem _ h1))
          it0 h0

theorem mergeHeap_extends (gmap : List (Int × PVal)) :
    ∀ (regionRefs : List Nat) (heap : Heap) (acc : List Nat),
      ∃ t, (regionRefs.foldl (mergeRegionStep gmap) (heap, acc)).1 = heap ++ t := by
  intro refs
  induction refs with
  | nil => intro heap acc; exact ⟨[], by simp⟩
  | cons r rest ih =>
      intro heap acc
      simp only [List.foldl_cons]
      have hstep : ∃ X, mergeRegionStep gmap (heap, acc) r
          = (heap ++ [X], acc ++ [heap.length]) := ⟨_, rfl⟩
      obtain ⟨X, hX⟩ := hstep
      rw [hX]
      obtain ⟨t, ht⟩ := ih (heap ++ [X]) (acc ++ [heap.length])
      exact ⟨[X] ++ t, by rw [ht, List.append_assoc]⟩

/-! ## Claim C9 — purity / frame effects of merge and normalisation -/

/-- C9 (counterexample): `normalize_analysis_data` modifies its input.
`item.copy()` is a *shallow* copy, so `new_item["analysis"]` is the very dict
the input item references, and the two normalisation writes land in it.
Starting from a heap with one analysis dict `{"primary_font": "SomeFont"}`
(referenced by the single input item), the call leaves the input item's
analysis dict with the two extra keys — the input analysis record is not
left unchanged. -/
theorem normalize_mutates_input_cex :
    ((normalize_analysis_data [] [[("primary_font", PVal.pstr "SomeFont")]]
        [⟨"region_0.png", 0⟩]).1
      = [[("primary_font", PVal.pstr "SomeFont"),
          ("normalized_font", PVal.pstr "Inter"),
          ("normalized_weight", PVal.pint 400)]]) ∧
    ((normalize_analysis_data [] [[("primary_font", PVal.pstr "SomeFont")]]
        [⟨"region_0.png", 0⟩]).1
      ≠ [[("primary_font", PVal.pstr "SomeFont")]]) := by
  exact ⟨by decide, by decide⟩

/-- C9 (amended): both functions are deterministic value-level functions, and
`merge_results` does not modify its inputs: on the heap model it only
allocates fresh region-dict copies (`region.copy()`), so the original heap is
preserved as a prefix.  `normalize_analysis_data` returns output items that
are shallow copies (record-equal to the inputs) and is idempotent — re-running
it over the already-normalised heap changes nothing — but, as the
counterexample shows, its first run mutates the input items' analysis dicts
in place. -/
theorem merge_pure_normalize_idempotent (fonts : Catalog) :
    (∀ (heap : Heap) (regionRefs : List Nat) (gmap : List (Int × PVal)),
      ((merge_results_heap heap regionRefs gmap).1).take heap.length = heap) ∧
    (∀ (heap : Heap) (items : List AnalysisItem),
      (normalize_analysis_data fonts heap items).2 = items) ∧
    (∀ (heap : Heap) (items : List AnalysisItem),
      (∀ it ∈ items, it.analysisRef < heap.length) →
      normalize_analysis_data fonts (normalize_analysis_data fonts heap items).1 items
        = normalize_analysis_data fonts heap items) := by
  refine ⟨?_, ?_, ?_⟩
  · intro heap refs gmap
    obtain ⟨t, ht⟩ := mergeHeap_extends gmap refs heap []
    rw [merge_results_heap, ht, List.take_left]
  · intro heap items
    exact normalize_fold_output fonts items heap []
  · intro heap items h
    have hlen : (normalize_analysis_data fonts heap items).1.length = heap.length :=
      normalize_fold_length fonts items heap []
    have hsettled : ∀ it ∈ items,
        it.analysisRef < (normalize_analysis_data fonts heap items).1.length ∧
        normalizeDict fonts
            ((normalize_analysis_data fonts heap items).1.getD it.analysisRef [])
          = (normalize_analysis_data fonts heap items).1.getD it.analysisRef [] := by
      intro it hit
      refine ⟨hlen ▸ h it hit, ?_⟩
      obtain ⟨d0, hd0⟩ := normalize_fold_settles fonts items heap [] h it hit
      show normalizeDict fonts
          ((List.foldl (normalizeStep fonts) (heap, []) items).1.getD it.analysisRef [])
        = (List.foldl (normalizeStep fonts) (heap, []) items).1.getD it.analysisRef []
      rw [hd0, normalizeDict_idem]
    have hid := normalize_fold_id_of_settled fonts items
      (normalize_analysis_data fonts heap items).1 [] hsettled
    show List.foldl (normalizeStep fonts)
        ((normalize_analysis_data fonts heap items).1, []) items
      = normalize_analysis_data fonts heap items
    rw [hid, List.nil_append]
    have hout : (normalize_analysis_data fonts heap items).2 = items :=
      normalize_fold_output fonts items heap []
    exact Prod.ext rfl hout.symm

theorem merge_pure_normalize_idempotent_witness :
    ((merge_results_heap [[("id", PVal.pint 1)]] [0] []).1).take 1
        = [[("id", PVal.pint 1)]] ∧
    normalize_analysis_data [] (normalize_analysis_data []
        [[("primary_font", PVal.pstr "F")]] [⟨"region_0.png", 0⟩]).1
        [⟨"region_0.png", 0⟩]
      = normalize_analysis_data [] [[("primary_font", PVal.pstr "F")]]
        [⟨"region_0.png", 0⟩] :=
  ⟨(merge_pure_normalize_idempotent []).1 [[("id", PVal.pint 1)]] [0] [],
   (merge_pure_normalize_idempotent []).2.2 [[("primary_font", PVal.pstr "F")]]
     [⟨"region_0.png", 0⟩] (by decide)⟩

/-! ## `color_detection.py` — color comparison

```python
def validate_color_against_model(image_path, model_color):
    detected_color = extract_dominant_text_color(image_path)
    is_exact_match = detected_color.upper() == model_color.upper()
    if len(detected_color) == 7 and len(model_color) == 7:
        det_r, det_g, det_b = int(detected_color[1:3], 16), int(detected_color[3:5], 16), int(detected_color[5:7], 16)
        mod_r, mod_g, mod_b = int(model_color[1:3], 16), int(model_color[3:5], 16), int(model_color[5:7], 16)
        distance = ((det_r - mod_r)**2 + (det_g - mod_g)**2 + (det_b - mod_b)**2) ** 0.5
        similarity = max(0, 100 - (distance / 4.41))
    else:
        similarity = 0 if not is_exact_match else 100
    return {..., "exact_match": is_exact_match, "similarity_percent": round(similarity, 1)}
```

`compareColors` embeds the comparison applied to the pair
`(detected_color, model_color)`.  `int(s, 16)` is embedded by `pyIntHex2`,
faithful to CPython on the ASCII slices the length-7 guard admits (always
exactly two characters): optional surrounding whitespace, an optional sign,
then hex digits — so `int("-1", 16) = -1` and `int(" 1", 16) = 1` parse, and
the parsed channel values are integers that may be negative.  A `0x`/`0X`
prefix needs a digit after it and cannot fit in two characters, and an
underscore may neither lead nor trail the digits, so neither arises in a
two-character slice; non-ASCII digits and whitespace are outside the model
(theorems over malformed inputs therefore carry an ASCII hypothesis).  A
failed parse inside the length-7 branch is an uncaught `ValueError`, embedded
as `Except.error`.  Float arithmetic is idealised as exact real arithmetic,
and the final `round(similarity, 1)` is not modelled: the only similarity
values certified below, `0` and `100`, are fixed points of rounding to one
decimal place. -/

def hexDigitVal (c : Char) : Option Nat :=
  if 48 ≤ c.toNat ∧ c.toNat ≤ 57 then some (c.toNat - 48)
  else if 97 ≤ c.toNat ∧ c.toNat ≤ 102 then some (c.toNat - 87)
  else if 65 ≤ c.toNat ∧ c.toNat ≤ 70 then some (c.toNat - 55)
  else none

/-- CPython `Py_UNICODE_ISSPACE`, restricted to ASCII. -/
def isPySpace (c : Char) : Bool :=
  c.toNat = 32 || c.toNat = 9 || c.toNat = 10 || c.toNat = 11 ||
  c.toNat = 12 || c.toNat = 13

/-- `int(s, 16)` on a slice of at most two characters: strip surrounding
whitespace, then an optional sign followed by one hex digit, or one or two
bare hex digits; everything else raises (`none`). -/
def pyIntHex2 (cs : List Char) : Option Int :=
  match ((cs.dropWhile isPySpace).reverse.dropWhile isPySpace).reverse with
  | ['+', c] => (hexDigitVal c).map (fun v => (v : Int))
  | ['-', c] => (hexDigitVal c).map (fun v => -(v : Int))
  | [c1, c2] =>
      match hexDigitVal c1, hexDigitVal c2 with
      | some a, some b => some ((a * 16 + b : Nat) : Int)
      | _, _ => none
  | [c] => (hexDigitVal c).map (fun v => (v : Int))
  | _ => none

/-- The Python slice `s[i:j]` as a character list. -/
def pySlice (s : String) (i j : Nat) : List Char := (s.toList.drop i).take (j - i)

def parseRGB (s : String) : Option (Int × Int × Int) :=
  match pyIntHex2 (pySlice s 1 3), pyIntHex2 (pySlice s 3 5), pyIntHex2 (pySlice s 5 7) with
  | some r, some g, some b => some (r, g, b)
  | _, _, _ => none

structure ColorComparison where
  exact_match : Bool
  similarity_percent : ℝ

noncomputable def colorSimilarity (c1 c2 : Int × Int × Int) : ℝ :=
  let distance : ℝ := Real.sqrt (((c1.1 : ℝ) - (c2.1 : ℝ)) ^ 2
    + ((c1.2.1 : ℝ) - (c2.2.1 : ℝ)) ^ 2 + ((c1.2.2 : ℝ) - (c2.2.2 : ℝ)) ^ 2)
  max 0 (100 - distance / 4.41)

noncomputable def compareColors (detected model : String) : Except String ColorComparison :=
  let is_exact := pyUpper detected == pyUpper model
  if detected.toList.length = 7 ∧ model.toList.length = 7 then
    match parseRGB detected, parseRGB model with
    | some c1, some c2 => .ok ⟨is_exact, colorSimilarity c1 c2⟩
    | _, _ => .error "ValueError: invalid literal for int() with base 16"
  else .ok ⟨is_exact, if is_exact then 100 else 0⟩

/-- A well-formed 6-hex-digit color string: 7 characters whose positions 1–6
parse as three hex bytes. -/
def WellFormedHex (s : String) : Prop :=
  s.toList.length = 7 ∧ (parseRGB s).isSome

instance (s : String) : Decidable (WellFormedHex s) := by
  unfold WellFormedHex
  infer_instance

theorem colorSimilarity_self (c : Int × Int × Int) : colorSimilarity c c = 100 := by
  unfold colorSimilarity
  simp [Real.sqrt_zero]

theorem colorSimilarity_white_black : colorSimilarity (255, 255, 255) (0, 0, 0) = 0 := by
  unfold colorSimilarity
  have h1 : (((255 : Int) : ℝ) - ((0 : Int) : ℝ)) ^ 2
      + (((255 : Int) : ℝ) - ((0 : Int) : ℝ)) ^ 2
      + (((255 : Int) : ℝ) - ((0 : Int) : ℝ)) ^ 2 = 195075 := by norm_num
  simp only [h1]
  have h2 : (441 : ℝ) ≤ Real.sqrt 195075 := by
    rw [Real.le_sqrt' (by norm_num)]
    norm_num
  have h3 : (100 : ℝ) - Real.sqrt 195075 / 4.41 ≤ 0 := by
    have : (100 : ℝ) ≤ Real.sqrt 195075 / 4.41 := by
      rw [le_div_iff₀ (by norm_num : (0 : ℝ) < 4.41)]
      calc (100 : ℝ) * 4.41 = 441 := by norm_num
        _ ≤ Real.sqrt 195075 := h2
    linarith
  exact max_eq_left h3

/-! ## Claims C4, C5 — the color comparison -/

/-- C4: for every pair of well-formed 6-hex-digit color strings the comparison
succeeds (no exception), reports `exact_match` as case-insensitive string
equality and `similarity_percent` as `max(0, 100 − euclidean_RGB_distance /
4.41)` (`colorSimilarity` of the two parsed RGB triples); identical
well-formed colors yield `exact_match = true` with similarity exactly `100`,
and `"#FFFFFF"` versus `"#000000"` (maximum RGB distance) yields
`exact_match = false` with similarity exactly `0`. -/
theorem compare_wellformed_colors :
    (∀ d m : String, WellFormedHex d → WellFormedHex m →
      ∃ c1 c2, parseRGB d = some c1 ∧ parseRGB m = some c2 ∧
        compareColors d m = .ok ⟨pyUpper d == pyUpper m, colorSimilarity c1 c2⟩) ∧
    (∀ d : String, WellFormedHex d → compareColors d d = .ok ⟨true, 100⟩) ∧
    compareColors "#FFFFFF" "#000000" = .ok ⟨false, 0⟩ := by
  have main : ∀ d m : String, WellFormedHex d → WellFormedHex m →
      ∃ c1 c2, parseRGB d = some c1 ∧ parseRGB m = some c2 ∧
        compareColors d m = .ok ⟨pyUpper d == pyUpper m, colorSimilarity c1 c2⟩ := by
    intro d m hd hm
    obtain ⟨c1, hc1⟩ := Option.isSome_iff_exists.mp hd.2
    obtain ⟨c2, hc2⟩ := Option.isSome_iff_exists.mp hm.2
    refine ⟨c1, c2, hc1, hc2, ?_⟩
    unfold compareColors
    rw [if_pos ⟨hd.1, hm.1⟩, hc1, hc2]
  refine ⟨main, ?_, ?_⟩
  · intro d hd
    obtain ⟨c1, c2, hc1, hc2, hcmp⟩ := main d d hd hd
    rw [hcmp]
    have hc : c1 = c2 := by rw [hc1] at hc2; exact Option.some_injective _ hc2
    rw [hc, colorSimilarity_self, beq_self_eq_true]
  · obtain ⟨c1, c2, hc1, hc2, hcmp⟩ := main "#FFFFFF" "#000000" (by decide) (by decide)
    rw [hcmp]
    have h1 : c1 = (255, 255, 255) := by
      have : parseRGB "#FFFFFF" = some (255, 255, 255) := by decide
      rw [this] at hc1; exact (Option.some_injective _ hc1).symm
    have h2 : c2 = (0, 0, 0) := by
      have : parseRGB "#000000" = some (0, 0, 0) := by decide
      rw [this] at hc2; exact (Option.some_injective _ hc2).symm
    have h3 : (pyUpper "#FFFFFF" == pyUpper "#000000") = false := by decide
    rw [h1, h2, h3, colorSimilarity_white_black]

theorem compare_wellformed_colors_witness :
    compareColors "#FF0000" "#FF0000" = .ok ⟨true, 100⟩ :=
  compare_wellformed_colors.2.1 "#FF0000" (by decide)

/-- C5 (counterexample): the claim fails in both directions.  First,
`compareColors "#ab" "#AB"` — two malformed (length-4) inputs that are *not*
identical strings — yields similarity `100`, because the fallback branch tests
case-insensitive equality (`.upper()`), not string identity.  Second,
`compareColors "#GG0000" "#000000"` — a malformed input of length 7 — raises:
`int("GG", 16)` is an uncaught `ValueError` escaping to the caller. -/
theorem compare_malformed_cex :
    (compareColors "#ab" "#AB" = .ok ⟨true, 100⟩ ∧ "#ab" ≠ "#AB") ∧
    compareColors "#GG0000" "#000000"
      = .error "ValueError: invalid literal for int() with base 16" := by
  refine ⟨⟨?_, by decide⟩, ?_⟩
  · unfold compareColors
    rw [if_neg (by decide)]
    rw [(by decide : (pyUpper "#ab" == pyUpper "#AB") = true)]
    norm_num
  · unfold compareColors
    rw [if_pos (by exact ⟨by decide, by decide⟩),
        (by decide : parseRGB "#GG0000" = none)]

/-- A string of ASCII characters only: the domain on which `pyUpper` and
`pyIntHex2` coincide exactly with CPython's `str.upper()` and `int(s, 16)`. -/
def AsciiString (s : String) : Prop := ∀ c ∈ s.toList, c.toNat < 128

instance (s : String) : Decidable (AsciiString s) := by
  unfold AsciiString
  infer_instance

/-- C5 (amended): for ASCII inputs, when at least one comparison input does
not have length 7 the comparison yields similarity `0` unless the two strings
are equal up to ASCII case folding (`.upper()` equality, not string
identity), in which case `100`, and never errors.  When both inputs have
length 7, an exception arises exactly when one of the three two-character
slices is rejected by `int(s, 16)` — which tolerates surrounding whitespace
and a sign around hex digits, so e.g. `compare("#-10203", "#000000")`
parses `int("-1", 16) = -1` and succeeds with no error — and the `ValueError`
then escapes to the caller. -/
theorem compare_malformed_behavior :
    (∀ d m : String, AsciiString d → AsciiString m →
      ¬(d.toList.length = 7 ∧ m.toList.length = 7) →
      compareColors d m
        = .ok ⟨pyUpper d == pyUpper m, if pyUpper d == pyUpper m then 100 else 0⟩) ∧
    (∀ d m : String, AsciiString d → AsciiString m →
      d.toList.length = 7 → m.toList.length = 7 →
      (parseRGB d = none ∨ parseRGB m = none) →
      compareColors d m = .error "ValueError: invalid literal for int() with base 16") ∧
    compareColors "#-10203" "#000000"
      = .ok ⟨false, colorSimilarity (-1, 2, 3) (0, 0, 0)⟩ := by
  refine ⟨?_, ?_, ?_⟩
  · intro d m _ _ h
    unfold compareColors
    rw [if_neg h]
  · intro d m _ _ h1 h2 h3
    unfold compareColors
    rw [if_pos ⟨h1, h2⟩]
    rcases h3 with h | h
    · rw [h]
    · rw [h]
      cases parseRGB d <;> rfl
  · unfold compareColors
    rw [if_pos (by exact ⟨by decide, by decide⟩),
        (by decide : parseRGB "#-10203" = some (-1, 2, 3)),
        (by decide : parseRGB "#000000" = some (0, 0, 0)),
        (by decide : (pyUpper "#-10203" == pyUpper "#000000") = false)]

theorem compare_malformed_behavior_witness :
    compareColors "#1" "#2"
      = .ok ⟨pyUpper "#1" == pyUpper "#2",
          if pyUpper "#1" == pyUpper "#2" then 100 else 0⟩ :=
  compare_malformed_behavior.1 "#1" "#2" (by decide) (by decide) (by decide)

/-! ## `color_detection.py` — `extract_dominant_text_color`

```python
def extract_dominant_text_color(image_path):
    img = cv2.imread(image_path)
    if img is None:
        raise ValueError(f"Could not read image: {image_path}")
    img_rgb = cv2.cvtColor(img, cv2.COLOR_BGR2RGB)
    img_hsv = cv2.cvtColor(img, cv2.COLOR_BGR2HSV)
    _, mask = cv2.threshold(img_hsv[:, :, 2], 200, 255, cv2.THRESH_BINARY_INV)
    kernel = cv2.getStructuringElement(cv2.MORPH_ELLIPSE, (3, 3))
    mask = cv2.morphologyEx(mask, cv2.MORPH_CLOSE, kernel, iterations=1)
    text_pixels = img_rgb[mask == 255]
    if len(text_pixels) == 0:
        text_pixels = img_rgb.reshape(-1, 3)
    text_pixels_quantized = (text_pixels // 10) * 10
    pixels_tuple = [tuple(p) for p in text_pixels_quantized]
    color_counts = Counter(pixels_tuple)
    dominant_color_rgb = color_counts.most_common(1)[0][0]
    return "#{:02X}{:02X}{:02X}".format(*dominant_color_rgb)
```

The OpenCV decoder and the HSV-threshold/morphology steps are external
library collaborators: the decoder is abstracted as `Option (List RGB)`
(`none` is `cv2.imread` returning `None`, which raises the `ValueError`), and
the foreground mask produced by thresholding and closing is abstracted as one
Boolean per pixel of the row-flattened image.  `Counter(...).most_common(1)`
returns the most frequent element, stable in first-insertion order on ties
(`mostCommon`); `most_common(1)[0]` on a zero-pixel image would be an
`IndexError`, kept as an `Except.error` branch (a successfully decoded raster
image always has at least one pixel).  `"{:02X}"` is `fmt02X`: uppercase hex,
zero-padded to a minimum width of two digits. -/

structure RGB where
  r : Nat
  g : Nat
  b : Nat
deriving DecidableEq

def quantizePixel (p : RGB) : RGB := ⟨p.r / 10 * 10, p.g / 10 * 10, p.b / 10 * 10⟩

def insertionKeys (l : List RGB) : List RGB :=
  l.foldl (fun acc p => if p ∈ acc then acc else acc ++ [p]) []

def mostCommon (l : List RGB) : Option RGB :=
  match insertionKeys l with
  | [] => none
  | k :: ks => some (ks.foldl (fun best x => if l.count x > l.count best then x else best) k)

def hexDigitChar (n : Nat) : Char :=
  if n < 10 then Char.ofNat (48 + n) else Char.ofNat (55 + n)

def hexChars (n : Nat) : List Char :=
  if _h : n < 16 then [hexDigitChar n]
  else hexChars (n / 16) ++ [hexDigitChar (n % 16)]
decreasing_by exact Nat.div_lt_self (by omega) (by omega)

def fmt02X (n : Nat) : String :=
  let cs := hexChars n
  String.mk (if cs.length < 2 then '0' :: cs else cs)

def extract_dominant_text_color (img : Option (List RGB)) (mask : List Bool) :
    Except String String :=
  match img with
  | none => .error "Could not read image"
  | some pixels =>
      let selected := (pixels.zip mask).filterMap
        (fun pm => if pm.2 then some pm.1 else none)
      let text_pixels := if selected = [] then pixels else selected
      match mostCommon (text_pixels.map quantizePixel) with
      | none => .error "IndexError: list index out of range"
      | some c => .ok ("#" ++ fmt02X c.r ++ fmt02X c.g ++ fmt02X c.b)

def isUpperHexDigit (c : Char) : Prop := c ∈ ("0123456789ABCDEF".toList)

instance (c : Char) : Decidable (isUpperHexDigit c) := by
  unfold isUpperHexDigit
  infer_instance

theorem toList_string_append (a b : String) : (a ++ b).toList = a.toList ++ b.toList := rfl

theorem hexChars_of_lt16 (n : Nat) (h : n < 16) : hexChars n = [hexDigitChar n] := by
  rw [hexChars]
  simp [h]

theorem hexChars_of_ge16_lt256 (n : Nat) (h1 : 16 ≤ n) (h2 : n < 256) :
    hexChars n = [hexDigitChar (n / 16), hexDigitChar (n % 16)] := by
  rw [hexChars]
  have hn : ¬ n < 16 := by omega
  have hd : n / 16 < 16 := by omega
  simp [hn, hexChars_of_lt16 _ hd]

theorem hexDigitChar_isUpperHex : ∀ n, n < 16 → isUpperHexDigit (hexDigitChar n) := by decide

theorem fmt02X_wf (n : Nat) (h : n < 256) :
    (fmt02X n).toList.length = 2 ∧ ∀ c ∈ (fmt02X n).toList, isUpperHexDigit c := by
  by_cases h16 : n < 16
  · unfold fmt02X
    rw [hexChars_of_lt16 n h16]
    refine ⟨rfl, ?_⟩
    intro c hc
    rcases List.mem_cons.mp hc with rfl | hc
    · decide
    · rcases List.mem_singleton.mp hc with rfl
      exact hexDigitChar_isUpperHex n h16
  · unfold fmt02X
    rw [hexChars_of_ge16_lt256 n (by omega) h]
    refine ⟨rfl, ?_⟩
    intro c hc
    rcases List.mem_cons.mp hc with rfl | hc
    · exact hexDigitChar_isUpperHex _ (by omega)
    · rcases List.mem_singleton.mp hc with rfl
      exact hexDigitChar_isUpperHex _ (Nat.mod_lt n (by omega))

theorem foldl_maxcount_mem (l : List RGB) :
    ∀ (xs : List RGB) (b : RGB),
      xs.foldl (fun best x => if l.count x > l.count best then x else best) b = b ∨
      xs.foldl (fun best x => if l.count x > l.count best then x else best) b ∈ xs := by
  intro xs
  induction xs with
  | nil => intro b; left; rfl
  | cons x rest ih =>
      intro b
      simp only [List.foldl_cons]
      by_cases h : l.count x > l.count b
      · simp only [if_pos h]
        rcases ih x with h1 | h1
        · right; rw [h1]; exact List.mem_cons_self x rest
        · right; exact List.mem_cons_of_mem x h1
      · simp only [if_neg h]
        rcases ih b with h1 | h1
        · left; exact h1
        · right; exact List.mem_cons_of_mem x h1

theorem mem_insertionKeys_sub :
    ∀ (l acc : List RGB) (x : RGB),
      x ∈ l.foldl (fun acc p => if p ∈ acc then acc else acc ++ [p]) acc →
      x ∈ acc ∨ x ∈ l := by
  intro l
  induction l with
  | nil => intro acc x h; left; exact h
  | cons p rest ih =>
      intro acc x h
      simp only [List.foldl_cons] at h
      rcases ih (if p ∈ acc then acc else acc ++ [p]) x h with h1 | h1
      · by_cases hp : p ∈ acc
        · rw [if_pos hp] at h1; left; exact h1
        · rw [if_neg hp] at h1
          rcases List.mem_append.mp h1 with h2 | h2
          · left; exact h2
          · right
            rcases List.mem_singleton.mp h2 with rfl
            exact List.mem_cons_self _ _
      · right; exact List.mem_cons_of_mem _ h1

theorem foldl_insert_ne_nil :
    ∀ (l acc : List RGB), acc ≠ [] →
      l.foldl (fun acc p => if p ∈ acc then acc else acc ++ [p]) acc ≠ [] := by
  intro l
  induction l with
  | nil => intro acc h; exact h
  | cons p rest ih =>
      intro acc h
      simp only [List.foldl_cons]
      apply ih
      by_cases hp : p ∈ acc
      · rw [if_pos hp]; exact h
      · rw [if_neg hp]
        intro he
        exact absurd (List.append_eq_nil.mp he).2 (by simp)

theorem insertionKeys_ne_nil (l : List RGB) (h : l ≠ []) : insertionKeys l ≠ [] := by
  cases l with
  | nil => exact absurd rfl h
  | cons p rest =>
      unfold insertionKeys
      simp only [List.foldl_cons]
      have hstep : (if p ∈ ([] : List RGB) then ([] : List RGB) else [] ++ [p]) = [p] := by
        simp
      rw [hstep]
      exact foldl_insert_ne_nil rest [p] (by simp)

theorem mostCommon_mem_of_ne_nil (l : List RGB) (h : l ≠ []) :
    ∃ c, mostCommon l = some c ∧ c ∈ l := by
  unfold mostCommon
  cases hk : insertionKeys l with
  | nil => exact absurd hk (insertionKeys_ne_nil l h)
  | cons k ks =>
      refine ⟨_, rfl, ?_⟩
      have hsub : ∀ x ∈ k :: ks, x ∈ l := by
        intro x hx
        rw [← hk] at hx
        rcases mem_insertionKeys_sub l [] x hx with h1 | h1
        · cases h1
        · exact h1
      rcases foldl_maxcount_mem l ks k with h1 | h1
      · rw [h1]; exact hsub k (List.mem_cons_self k ks)
      · exact hsub _ (List.mem_cons_of_mem _ h1)

theorem selected_subset (pixels : List RGB) (mask : List Bool) :
    ∀ p ∈ (pixels.zip mask).filterMap (fun pm => if pm.2 then some pm.1 else none),
      p ∈ pixels := by
  intro p hp
  rw [List.mem_filterMap] at hp
  obtain ⟨⟨a, flag⟩, hmem, heq⟩ := hp
  cases flag with
  | false => simp at heq
  | true =>
      simp at heq
      exact heq ▸ (List.of_mem_zip hmem).1

theorem filterMap_zip_all_true : ∀ (pixels : List RGB),
    (pixels.zip (pixels.map fun _ => true)).filterMap
      (fun pm => if pm.2 then some pm.1 else none) = pixels := by
  intro pixels
  induction pixels with
  | nil => rfl
  | cons p rest ih =>
      simp at ih ⊢
      exact ih

theorem extract_some_eq (pixels : List RGB) (mask : List Bool) :
    extract_dominant_text_color (some pixels) mask =
      match mostCommon ((if (pixels.zip mask).filterMap
            (fun pm => if pm.2 then some pm.1 else none) = []
          then pixels
          else (pixels.zip mask).filterMap
            (fun pm => if pm.2 then some pm.1 else none)).map quantizePixel) with
      | none => Except.error "IndexError: list index out of range"
      | some c => Except.ok ("#" ++ fmt02X c.r ++ fmt02X c.g ++ fmt02X c.b) := rfl

/-! ## Claim C10 — the dominant-color extractor -/

/-- C10: `extract_dominant_text_color` raises a `ValueError` exactly when the
decoder returns nothing (`cv2.imread` gave `None`); for every decoded image
(a non-empty pixel list, every channel a byte) and every foreground mask it
returns, without raising, a string of length 7 starting with `'#'` whose
remaining six characters are uppercase hex digits; and when the mask selects
zero pixels the result is the same as sampling every pixel of the image
(an all-true mask). -/
theorem extract_color_contract :
    (∀ mask : List Bool,
      extract_dominant_text_color none mask = .error "Could not read image") ∧
    (∀ (pixels : List RGB) (mask : List Bool), pixels ≠ [] →
      (∀ p ∈ pixels, p.r < 256 ∧ p.g < 256 ∧ p.b < 256) →
      ∃ s, extract_dominant_text_color (some pixels) mask = .ok s ∧
        s.toList.length = 7 ∧ s.toList.head? = some '#' ∧
        ∀ c ∈ s.toList.tail, isUpperHexDigit c) ∧
    (∀ (pixels : List RGB) (mask : List Bool),
      (pixels.zip mask).filterMap (fun pm => if pm.2 then some pm.1 else none) = [] →
      extract_dominant_text_color (some pixels) mask
        = extract_dominant_text_color (some pixels) (pixels.map (fun _ => true))) := by
  refine ⟨fun mask => rfl, ?_, ?_⟩
  · intro pixels mask hne hbound
    set sel := (pixels.zip mask).filterMap (fun pm => if pm.2 then some pm.1 else none)
      with hsel
    set tp := if sel = [] then pixels else sel with htp
    have htpne : tp ≠ [] := by
      by_cases hc : sel = []
      · rw [htp, if_pos hc]; exact hne
      · rw [htp, if_neg hc]; exact hc
    obtain ⟨mc, hmc, hmcmem⟩ := mostCommon_mem_of_ne_nil (tp.map quantizePixel)
      (by simpa using htpne)
    obtain ⟨p, hp, hpq⟩ := List.mem_map.mp hmcmem
    have hpin : p ∈ pixels := by
      by_cases hc : sel = []
      · rw [htp, if_pos hc] at hp; exact hp
      · rw [htp, if_neg hc] at hp
        exact selected_subset pixels mask p (hsel ▸ hp)
    obtain ⟨hbr, hbg, hbb⟩ := hbound p hpin
    have hr : mc.r < 256 := by
      rw [← hpq]; exact lt_of_le_of_lt (Nat.div_mul_le_self _ _) hbr
    have hg : mc.g < 256 := by
      rw [← hpq]; exact lt_of_le_of_lt (Nat.div_mul_le_self _ _) hbg
    have hb : mc.b < 256 := by
      rw [← hpq]; exact lt_of_le_of_lt (Nat.div_mul_le_self _ _) hbb
    obtain ⟨hlr, hcr⟩ := fmt02X_wf mc.r hr
    obtain ⟨hlg, hcg⟩ := fmt02X_wf mc.g hg
    obtain ⟨hlb, hcb⟩ := fmt02X_wf mc.b hb
    refine ⟨"#" ++ fmt02X mc.r ++ fmt02X mc.g ++ fmt02X mc.b, ?_, ?_, ?_, ?_⟩
    · rw [extract_some_eq pixels mask, ← hsel, ← htp, hmc]
    · rw [toList_string_append, toList_string_append, toList_string_append]
      simp only [List.length_append, hlr, hlg, hlb]
      rfl
    · rw [toList_string_append, toList_string_append, toList_string_append]
      rfl
    · rw [toList_string_append, toList_string_append, toList_string_append]
      have hshape : ((("#".toList ++ (fmt02X mc.r).toList) ++ (fmt02X mc.g).toList)
          ++ (fmt02X mc.b).toList).tail
          = ((fmt02X mc.r).toList ++ (fmt02X mc.g).toList) ++ (fmt02X mc.b).toList := rfl
      rw [hshape]
      intro c hc
      rcases List.mem_append.mp hc with hc1 | hc1
      · rcases List.mem_append.mp hc1 with hc2 | hc2
        · exact hcr c hc2
        · exact hcg c hc2
      · exact hcb c hc1
  · intro pixels mask hzero
    rw [extract_some_eq pixels mask,
        extract_some_eq pixels (pixels.map (fun _ => true)), hzero]
    rw [filterMap_zip_all_true pixels]
    simp [ite_self]

theorem extract_color_contract_witness :
    ∃ s, extract_dominant_text_color (some [⟨10, 20, 30⟩]) [false] = .ok s ∧
      s.toList.length = 7 ∧ s.toList.head? = some '#' ∧
      ∀ c ∈ s.toList.tail, isUpperHexDigit c :=
  extract_color_contract.2.1 [⟨10, 20, 30⟩] [false] (by decide) (by decide)
